import Mathlib

/-!
Verification of the Spanish Snowball stemmer
(`src/whoosh/lang/snowball/spanish.py`, class `SpanishStemmer`).

Words are modelled as `List Char`.  The record `StemState` mirrors the local
variables `word`, `r1`, `r2`, `rv` and `step1_success` of
`SpanishStemmer.stem`; the six steps of the algorithm are modelled as
functions on that record.  A raised Python exception (`IndexError`) is
modelled by `Option`: `stem` returns `none` exactly when the Python code
raises.
-/

namespace SpanishSnowball

/-- Modelled from the spec: Python `str.lower` (used at `word = word.lower()`,
line 85) is a standard-library collaborator; it is embedded restricted to the
Spanish alphabet the spec declares (ASCII letters plus the accented vowels
and eñe).  All other characters are left unchanged. -/
def lowerPairs : List (Char × Char) :=
  [('A','a'),('B','b'),('C','c'),('D','d'),('E','e'),('F','f'),('G','g'),
   ('H','h'),('I','i'),('J','j'),('K','k'),('L','l'),('M','m'),('N','n'),
   ('O','o'),('P','p'),('Q','q'),('R','r'),('S','s'),('T','t'),('U','u'),
   ('V','v'),('W','w'),('X','x'),('Y','y'),('Z','z'),
   ('Á','á'),('É','é'),('Í','í'),('Ó','ó'),('Ú','ú'),('Ü','ü'),('Ñ','ñ')]

/-- Python `str.lower` on a single character (see `lowerPairs`). -/
def pyLower (c : Char) : Char :=
  ((lowerPairs.find? (fun p => p.1 == c)).map Prod.snd).getD c

/-- Python `s.endswith(p)`: `p` is a suffix of `s`. -/
def endsWith (s p : List Char) : Bool := p.isSuffixOf s

/-- Python `s.endswith((p, q, ...))`: some listed suffix matches. -/
def endsWithAny (s : List Char) (ps : List (List Char)) : Bool :=
  ps.any (fun p => endsWith s p)

/-- The Python slice `s[:-n]` for `n ≥ 1`: drop the last `n` characters
(everything when `n ≥ len(s)`). -/
def dropLastN (s : List Char) (n : Nat) : List Char := s.take (s.length - n)

/-- The Python slice `s[-n:]` for `n ≥ 1`: the last `n` characters. -/
def lastN (s : List Char) (n : Nat) : List Char := s.drop (s.length - n)

/-- Worker for `replaceAll`.  While `skip > 0` the character belongs to a
pattern occurrence that was already replaced and is dropped; at `skip = 0` a
new occurrence of `pat` may start. -/
def replAux (pat repl : List Char) : Nat → List Char → List Char
  | _, [] => []
  | skip+1, _ :: rest => replAux pat repl skip rest
  | 0, c :: rest =>
    if pat ≠ [] ∧ pat.isPrefixOf (c :: rest) then
      repl ++ replAux pat repl (pat.length - 1) rest
    else
      c :: replAux pat repl 0 rest

/-- Python `s.replace(pat, repl)` for a non-empty `pat`: replace every
occurrence of `pat` in `s`, scanning left to right and continuing after each
replacement. -/
def replaceAll (pat repl s : List Char) : List Char := replAux pat repl 0 s

/-- The accent-replacement chain of step 0, lines 100-111:
`.replace("á","a").replace("é","e").replace("í","i")`. -/
def removeAccentAEI (s : List Char) : List Char :=
  replaceAll ['í'] ['i'] (replaceAll ['é'] ['e'] (replaceAll ['á'] ['a'] s))

/-- The final accent normalization, lines 245-247: replace each of
á, é, í, ó, ú by its base vowel. -/
def normalize (s : List Char) : List Char :=
  replaceAll ['ú'] ['u'] (replaceAll ['ó'] ['o'] (replaceAll ['í'] ['i']
    (replaceAll ['é'] ['e'] (replaceAll ['á'] ['a'] s))))

/-- `SpanishStemmer.__vowels` (line 29): `"aeiou\xE1\xE9\xED\xF3\xFA\xFC"`. -/
def vowels : List Char := "aeiouáéíóúü".data

/-- Modelled from the spec: the scan inside `_r1r2_standard` of the missing
`bases` module (the RegionComputer collaborator, spec section 4.1): return
the part of the word after the first non-vowel that follows a vowel, or `[]`
when there is none.  `prev` is the character before the current one. -/
def r1Scan (prev : Char) : List Char → List Char
  | [] => []
  | c :: rest =>
    if ¬ (c ∈ vowels) ∧ prev ∈ vowels then rest
    else r1Scan c rest

/-- Modelled from the spec: `_r1r2_standard(word, vowels)` of the missing
`bases` module (spec section 4.1): `r1` starts after the first non-vowel
following a vowel; `r2` is the same rule applied inside `r1`.  Both are
returned as suffix strings, as the Python code holds them. -/
def r1r2Standard (word : List Char) : List Char × List Char :=
  match word with
  | [] => ([], [])
  | c :: rest =>
    match r1Scan c rest with
    | [] => ([], [])
    | d :: drest => (d :: drest, r1Scan d drest)

/-- Scan for the first vowel; return what follows it (RV rule, consonant
case).  Part of the spec-modelled RegionComputer. -/
def rvScanVowel : List Char → List Char
  | [] => []
  | c :: rest => if c ∈ vowels then rest else rvScanVowel rest

/-- Scan for the first non-vowel; return what follows it (RV rule, two-vowel
case).  Part of the spec-modelled RegionComputer. -/
def rvScanCons : List Char → List Char
  | [] => []
  | c :: rest => if ¬ (c ∈ vowels) then rest else rvScanCons rest

/-- Modelled from the spec: `_rv_standard(word, vowels)` of the missing
`bases` module — the Spanish-specific RV rule of spec section 4.1: when the
second letter is a consonant, RV starts after the next vowel; when the first
two letters are vowels, RV starts after the next consonant; otherwise RV is
`word[3:]`.  RV is empty when these positions do not exist or the word has
fewer than two letters. -/
def rvStandard (word : List Char) : List Char :=
  match word with
  | c0 :: c1 :: rest =>
    if ¬ (c1 ∈ vowels) then rvScanVowel rest
    else if c0 ∈ vowels ∧ c1 ∈ vowels then rvScanCons rest
    else (c0 :: c1 :: rest).drop 3
  | _ => []

/-- `__step0_suffixes` (lines 30-32), in source order. -/
def step0Suffixes : List (List Char) :=
  ["selas", "selos", "sela", "selo", "las", "les", "los", "nos", "me",
   "se", "la", "le", "lo"].map String.data

/-- `__step1_suffixes` (lines 33-43), in source order. -/
def step1Suffixes : List (List Char) :=
  ["amientos", "imientos", "amiento", "imiento", "aciones", "uciones",
   "adoras", "adores", "ancias", "logías", "encias", "amente", "idades",
   "anzas", "ismos", "ables", "ibles", "istas", "adora", "ación", "antes",
   "ancia", "logía", "ución", "encia", "mente", "anza", "icos", "icas",
   "ismo", "able", "ible", "ista", "osos", "osas", "ador", "ante", "idad",
   "ivas", "ivos", "ico", "ica", "oso", "osa", "iva", "ivo"].map String.data

/-- `__step2a_suffixes` (lines 44-46), in source order. -/
def step2aSuffixes : List (List Char) :=
  ["yeron", "yendo", "yamos", "yais", "yan", "yen", "yas", "yes", "ya",
   "ye", "yo", "yó"].map String.data

/-- `__step2b_suffixes` (lines 47-71), in source order. -/
def step2bSuffixes : List (List Char) :=
  ["aríamos", "eríamos", "iríamos", "iéramos", "iésemos", "aríais",
   "aremos", "eríais", "eremos", "iríais", "iremos", "ierais", "ieseis",
   "asteis", "isteis", "ábamos", "áramos", "ásemos", "arían", "arías",
   "aréis", "erían", "erías", "eréis", "irían", "irías", "iréis", "ieran",
   "iesen", "ieron", "iendo", "ieras", "ieses", "abais", "arais", "aseis",
   "éamos", "arán", "arás", "aría", "erán", "erás", "ería", "irán", "irás",
   "iría", "iera", "iese", "aste", "iste", "aban", "aran", "asen", "aron",
   "ando", "abas", "adas", "idas", "aras", "ases", "íais", "ados", "idos",
   "amos", "imos", "emos", "ará", "aré", "erá", "eré", "irá", "iré", "aba",
   "ada", "ida", "ara", "ase", "ían", "ado", "ido", "ías", "áis", "éis",
   "ía", "ad", "ed", "id", "an", "ió", "ar", "er", "ir", "as", "ís", "en",
   "es"].map String.data

/-- `__step3_suffixes` (lines 72-73), in source order. -/
def step3Suffixes : List (List Char) :=
  ["os", "a", "e", "o", "á", "é", "í", "ó"].map String.data

/-- The local state of `SpanishStemmer.stem`: the current word, the three
regions held as suffix strings (exactly as the Python code holds them), and
the `step1_success` flag. -/
structure StemState where
  word : List Char
  r1 : List Char
  r2 : List Char
  rv : List Char
  step1_success : Bool
deriving DecidableEq, Repr

/-- Lines 85-90: lowercase the word, clear the flag and compute the three
regions (via the spec-modelled RegionComputer). -/
def initState (w : List Char) : StemState :=
  let word := w.map pyLower
  { word := word
    r1 := (r1r2Standard word).1
    r2 := (r1r2Standard word).2
    rv := rvStandard word
    step1_success := false }

/-- The inner three-way branch of step 0 (lines 96-125), applied once the
suffix `s` has matched both the word and RV. -/
def branch0 (s : List Char) (st : StemState) : StemState :=
  let n := s.length
  if endsWithAny (dropLastN st.rv n)
      ["iéndo".data, "ándo".data, "ár".data, "ér".data, "ír".data] then
    { st with word := removeAccentAEI (dropLastN st.word n)
              r1 := removeAccentAEI (dropLastN st.r1 n)
              r2 := removeAccentAEI (dropLastN st.r2 n)
              rv := removeAccentAEI (dropLastN st.rv n) }
  else if endsWithAny (dropLastN st.rv n)
      ["ando".data, "iendo".data, "ar".data, "er".data, "ir".data] then
    { st with word := dropLastN st.word n
              r1 := dropLastN st.r1 n
              r2 := dropLastN st.r2 n
              rv := dropLastN st.rv n }
  else if endsWith (dropLastN st.rv n) "yendo".data
       && endsWith (dropLastN st.word n) "uyendo".data then
    { st with word := dropLastN st.word n
              r1 := dropLastN st.r1 n
              r2 := dropLastN st.r2 n
              rv := dropLastN st.rv n }
  else st

/-- STEP 0, attached pronoun (lines 92-126): the loop breaks at the first
suffix the *word* ends with; only if RV also ends with it is the three-way
branch applied. -/
def step0 (st : StemState) : StemState :=
  match step0Suffixes.find? (fun s => endsWith st.word s) with
  | some s => if endsWith st.rv s then branch0 s st else st
  | none => st

/-- Step 0 as the spec's words describe it (spec section 4.2, step 0): act on
the first suffix in priority order for which BOTH the word and RV end with
the suffix.  Kept separate from `step0` for the refinement comparison. -/
def specStep0 (st : StemState) : StemState :=
  match step0Suffixes.find? (fun s => endsWith st.word s && endsWith st.rv s) with
  | some s => branch0 s st
  | none => st

/-- The suffix family of lines 152-154. -/
def familyAdor : List (List Char) :=
  ["adora", "ador", "ación", "adoras", "adores", "aciones", "ante",
   "antes", "ancia", "ancias"].map String.data

/-- The `amente` branch of STEP 1 (lines 131-148); the source never updates
`r1` here, and its two inner follow-up strips never update `r2`. -/
def step1Amente (st : StemState) : StemState :=
  if endsWith (dropLastN st.r2 6) "iv".data then
    if endsWith (dropLastN (dropLastN st.r2 6) 2) "at".data then
      { st with word := dropLastN (dropLastN (dropLastN st.word 6) 2) 2
                r2 := dropLastN (dropLastN st.r2 6) 2
                rv := dropLastN (dropLastN (dropLastN st.rv 6) 2) 2
                step1_success := true }
    else
      { st with word := dropLastN (dropLastN st.word 6) 2
                r2 := dropLastN (dropLastN st.r2 6) 2
                rv := dropLastN (dropLastN st.rv 6) 2
                step1_success := true }
  else if endsWithAny (dropLastN st.r2 6) ["os".data, "ic".data, "ad".data] then
    { st with word := dropLastN (dropLastN st.word 6) 2
              r2 := dropLastN st.r2 6
              rv := dropLastN (dropLastN st.rv 6) 2
              step1_success := true }
  else
    { st with word := dropLastN st.word 6, r2 := dropLastN st.r2 6
              rv := dropLastN st.rv 6, step1_success := true }

/-- The agent/action-noun branch of STEP 1 (lines 152-161); the follow-up
`ic` strip never updates `r2`. -/
def step1Ador (s : List Char) (st : StemState) : StemState :=
  if endsWith (dropLastN st.r2 s.length) "ic".data then
    { st with word := dropLastN (dropLastN st.word s.length) 2
              r2 := dropLastN st.r2 s.length
              rv := dropLastN (dropLastN st.rv s.length) 2
              step1_success := true }
  else
    { st with word := dropLastN st.word s.length
              r2 := dropLastN st.r2 s.length
              rv := dropLastN st.rv s.length
              step1_success := true }

/-- The rewrite branches of STEP 1 (lines 163-173): `str.replace` applied to
the word and to RV, with `r1` and `r2` left untouched. -/
def step1Replace (s r : List Char) (st : StemState) : StemState :=
  { st with word := replaceAll s r st.word
            rv := replaceAll s r st.rv, step1_success := true }

/-- The `mente` branch of STEP 1 (lines 175-182). -/
def step1Mente (st : StemState) : StemState :=
  if endsWithAny (dropLastN st.r2 5) ["ante".data, "able".data, "ible".data] then
    { st with word := dropLastN (dropLastN st.word 5) 4
              r2 := dropLastN st.r2 5
              rv := dropLastN (dropLastN st.rv 5) 4
              step1_success := true }
  else
    { st with word := dropLastN st.word 5, r2 := dropLastN st.r2 5
              rv := dropLastN st.rv 5, step1_success := true }

/-- The `idad` branch of STEP 1 (lines 184-192): the pre-suffix loop has no
break, tests each pre-suffix against the same (never-updated) `r2`, and
shortens the word and RV cumulatively. -/
def step1Idad (s : List Char) (st : StemState) : StemState :=
  let r2a := dropLastN st.r2 s.length
  let nA : Nat := if endsWith r2a "abil".data then 4 else 0
  let nB : Nat := if endsWith r2a "ic".data then 2 else 0
  let nC : Nat := if endsWith r2a "iv".data then 2 else 0
  { st with word := dropLastN (dropLastN (dropLastN (dropLastN st.word s.length) nA) nB) nC
            r2 := r2a
            rv := dropLastN (dropLastN (dropLastN (dropLastN st.rv s.length) nA) nB) nC
            step1_success := true }

/-- The `ivo`/`iva` branch of STEP 1 (lines 194-200). -/
def step1Ivo (s : List Char) (st : StemState) : StemState :=
  if endsWith (dropLastN st.r2 s.length) "at".data then
    { st with word := dropLastN (dropLastN st.word s.length) 2
              r2 := dropLastN st.r2 s.length
              rv := dropLastN (dropLastN st.rv s.length) 2
              step1_success := true }
  else
    { st with word := dropLastN st.word s.length
              r2 := dropLastN st.r2 s.length
              rv := dropLastN st.rv s.length
              step1_success := true }

/-- The default branch of STEP 1 (lines 201-203): word and RV only. -/
def step1Plain (s : List Char) (st : StemState) : StemState :=
  { st with word := dropLastN st.word s.length
            rv := dropLastN st.rv s.length, step1_success := true }

/-- The body of STEP 1 (lines 130-203) once the loop stopped at suffix `s`
(the first one the word ends with). -/
def step1Apply (s : List Char) (st : StemState) : StemState :=
  if s = "amente".data ∧ endsWith st.r1 s = true then step1Amente st
  else if endsWith st.r2 s then
    if s ∈ familyAdor then step1Ador s st
    else if s = "logía".data ∨ s = "logías".data then step1Replace s "log".data st
    else if s = "ución".data ∨ s = "uciones".data then step1Replace s "u".data st
    else if s = "encia".data ∨ s = "encias".data then step1Replace s "ente".data st
    else if s = "mente".data then step1Mente st
    else if s = "idad".data ∨ s = "idades".data then step1Idad s st
    else if s = "ivo".data ∨ s = "iva".data ∨ s = "ivos".data ∨ s = "ivas".data then
      step1Ivo s st
    else step1Plain s st
  else st

/-- STEP 1, standard suffix removal (lines 128-204): the loop breaks at the
first suffix the word ends with. -/
def step1 (st : StemState) : StemState :=
  match step1Suffixes.find? (fun s => endsWith st.word s) with
  | some s => step1Apply s st
  | none => st

/-- STEP 2a, verb suffixes beginning with y (lines 206-213): the suffix must
match RV and the character right before it in the word must be `u`
(`word[-len(suffix) - 1:-len(suffix)] == "u"`). -/
def step2a (st : StemState) : StemState :=
  match step2aSuffixes.find?
      (fun s => endsWith st.rv s && (lastN (dropLastN st.word s.length) 1 == ['u'])) with
  | some s => { st with word := dropLastN st.word s.length
                        rv := dropLastN st.rv s.length }
  | none => st

/-- STEP 2b, other verb suffixes (lines 215-230). -/
def step2b (st : StemState) : StemState :=
  match step2bSuffixes.find? (fun s => endsWith st.rv s) with
  | some s =>
    if s = "en".data ∨ s = "es".data ∨ s = "éis".data ∨ s = "emos".data then
      let word1 := dropLastN st.word s.length
      let rv1 := dropLastN st.rv s.length
      let word2 := if endsWith word1 "gu".data then dropLastN word1 1 else word1
      let rv2 := if endsWith rv1 "gu".data then dropLastN rv1 1 else rv1
      { st with word := word2, rv := rv2 }
    else
      { st with word := dropLastN st.word s.length
                rv := dropLastN st.rv s.length }
  | none => st

/-- The `if not step1_success:` gate (line 207) around steps 2a and 2b: both
run, in order, exactly when step 1 did not set the flag. -/
def step2 (st : StemState) : StemState :=
  if st.step1_success then st else step2b (step2a st)

/-- STEP 3, residual suffix (lines 232-243).  In the `e`/`é` branch the
source evaluates `rv[-1]` (line 239), which raises `IndexError` when `rv` is
empty; that raise is modelled by `none`. -/
def step3 (st : StemState) : Option StemState :=
  match step3Suffixes.find? (fun s => endsWith st.rv s) with
  | some s =>
    if s = "e".data ∨ s = "é".data then
      let word1 := dropLastN st.word s.length
      let rv1 := dropLastN st.rv s.length
      if lastN word1 2 == "gu".data then
        match rv1.getLast? with
        | none => none
        | some c =>
          if c = 'u' then some { st with word := dropLastN word1 1, rv := rv1 }
          else some { st with word := word1, rv := rv1 }
      else some { st with word := word1, rv := rv1 }
    else
      some { st with word := dropLastN st.word s.length }
  | none => some st

/-- `SpanishStemmer.stem` (lines 75-248): the full pipeline.  `none` models a
raised exception. -/
def stem (w : List Char) : Option (List Char) :=
  (step3 (step2 (step1 (step0 (initState w))))).map (fun st => normalize st.word)

/-- Every character of `l` is fixed by `pyLower`, i.e. `l` is lowercase. -/
def LowerFixed (l : List Char) : Prop := ∀ c ∈ l, pyLower c = c

/-- The region invariant of the spec's data-model section: the regions are
suffixes of the current word, `r2` nested inside `r1`. -/
def RegionsOk (st : StemState) : Prop :=
  st.r2 <:+ st.r1 ∧ st.r1 <:+ st.word ∧ st.rv <:+ st.word

/-- The five accented vowels the final normalization removes. -/
def accentChars : List Char := ['á', 'é', 'í', 'ó', 'ú']

/-! ## Basic lemmas about the string helpers -/

theorem pyLower_idem (c : Char) : pyLower (pyLower c) = pyLower c := by
  unfold pyLower
  cases h : lowerPairs.find? (fun p => p.1 == c) with
  | none => simp [h]
  | some q =>
    have hq : q ∈ lowerPairs := List.mem_of_find?_eq_some h
    have hall : ∀ r ∈ lowerPairs, lowerPairs.find? (fun p => p.1 == r.2) = none := by decide
    simp [h, hall q hq]

theorem map_pyLower_idem (w : List Char) :
    (w.map pyLower).map pyLower = w.map pyLower := by
  induction w with
  | nil => rfl
  | cons c t ih => simp [pyLower_idem, ih]

theorem endsWith_iff {s p : List Char} : endsWith s p = true ↔ p <:+ s := by
  simp [endsWith]

theorem endsWith_length_le {s p : List Char} (h : endsWith s p = true) :
    p.length ≤ s.length :=
  (endsWith_iff.mp h).length_le

theorem length_dropLastN (s : List Char) (n : Nat) :
    (dropLastN s n).length = s.length - n := by
  simp [dropLastN]

theorem length_dropLastN_le (s : List Char) (n : Nat) :
    (dropLastN s n).length ≤ s.length := by
  rw [length_dropLastN]; omega

theorem mem_of_mem_dropLastN {c : Char} {s : List Char} {n : Nat}
    (h : c ∈ dropLastN s n) : c ∈ s :=
  List.mem_of_mem_take h

theorem dropLastN_suffix_mono {a b : List Char} (h : a <:+ b) (n : Nat) :
    dropLastN a n <:+ dropLastN b n := by
  obtain ⟨t, rfl⟩ := h
  unfold dropLastN
  by_cases hn : n ≤ a.length
  · have hlen : (t ++ a).length - n = t.length + (a.length - n) := by
      rw [List.length_append]; omega
    rw [hlen, List.take_append_eq_append_take]
    rw [List.take_of_length_le (l := t) (by omega)]
    rw [Nat.add_sub_cancel_left]
    exact List.suffix_append _ _
  · have ha : a.length - n = 0 := by omega
    rw [ha]
    simp

theorem suffix_of_suffix_of_length_le {a b w : List Char}
    (ha : a <:+ w) (hb : b <:+ w) (h : a.length ≤ b.length) : a <:+ b := by
  rw [List.suffix_iff_eq_drop] at ha hb
  rw [ha, hb]
  exact List.drop_suffix_drop_left w (by omega)

theorem isPrefixOf_length_le : ∀ {l₁ l₂ : List Char},
    l₁.isPrefixOf l₂ = true → l₁.length ≤ l₂.length
  | [], _, _ => by simp
  | a :: as, [], h => by simp [List.isPrefixOf] at h
  | a :: as, b :: bs, h => by
    simp only [List.isPrefixOf, Bool.and_eq_true] at h
    simpa using isPrefixOf_length_le h.2

theorem isPrefixOf_self : ∀ (l : List Char), l.isPrefixOf l = true
  | [] => rfl
  | a :: as => by simp [List.isPrefixOf, isPrefixOf_self as]

/-! ## Lemmas about `replaceAll` -/

theorem length_replAux_le {pat repl : List Char} (hr : repl.length ≤ pat.length) :
    ∀ (s : List Char) (skip : Nat), (replAux pat repl skip s).length ≤ s.length - skip := by
  intro s
  induction s with
  | nil => intro skip; simp [replAux]
  | cons c rest ih =>
    intro skip
    match skip with
    | skip' + 1 =>
      have := ih skip'
      simp only [replAux, List.length_cons]
      omega
    | 0 =>
      simp only [replAux]
      split
      · rename_i hcond
        have hne : pat ≠ [] := hcond.1
        have hlen : pat.length ≤ rest.length + 1 := by
          simpa using isPrefixOf_length_le hcond.2
        have hp1 : 0 < pat.length := List.length_pos.mpr hne
        have := ih (pat.length - 1)
        simp only [List.length_append, List.length_cons]
        omega
      · have := ih 0
        simp only [List.length_cons]
        omega

theorem length_replaceAll_le {pat repl : List Char} (hr : repl.length ≤ pat.length)
    (s : List Char) : (replaceAll pat repl s).length ≤ s.length := by
  have := length_replAux_le hr s 0
  simpa [replaceAll] using this

theorem length_replaceAll_lt {pat repl : List Char} (hne : pat ≠ [])
    (hr : repl.length < pat.length) :
    ∀ {s : List Char}, endsWith s pat = true →
      (replaceAll pat repl s).length < s.length := by
  intro s
  induction s with
  | nil =>
    intro hs
    rw [endsWith_iff] at hs
    simp at hs
    exact absurd hs hne
  | cons c rest ih =>
    intro hs
    simp only [replaceAll, replAux]
    split
    · rename_i hcond
      have hlen : pat.length ≤ rest.length + 1 := by
        simpa using isPrefixOf_length_le hcond.2
      have hp1 : 0 < pat.length := List.length_pos.mpr hne
      have := length_replAux_le (Nat.le_of_lt hr) rest (pat.length - 1)
      simp only [List.length_append, List.length_cons]
      omega
    · rename_i hcond
      have hnpre : ¬ pat.isPrefixOf (c :: rest) = true := by
        intro hpre; exact hcond ⟨hne, hpre⟩
      have hsuf : pat <:+ rest := by
        rcases List.suffix_cons_iff.mp (endsWith_iff.mp hs) with heq | hsuf
        · exact absurd (heq ▸ isPrefixOf_self pat) hnpre
        · exact hsuf
      have := ih (endsWith_iff.mpr hsuf)
      simp only [replaceAll] at this
      simp only [List.length_cons]
      omega

theorem replaceAll_singleton (a b : Char) (s : List Char) :
    replaceAll [a] [b] s = s.map (fun c => if c == a then b else c) := by
  unfold replaceAll
  induction s with
  | nil => rfl
  | cons c rest ih =>
    by_cases hac : a = c
    · subst hac
      simp only [replAux, List.isPrefixOf, List.map_cons]
      rw [if_pos ⟨by simp, by simp [List.isPrefixOf]⟩]
      simp only [List.length_cons, List.length_nil]
      simpa [replaceAll] using ih
    · simp only [replAux, List.map_cons]
      rw [if_neg (by simp [List.isPrefixOf, hac])]
      simp only [List.cons.injEq]
      refine ⟨by simp [Ne.symm hac], ?_⟩
      simpa [replaceAll] using ih

theorem mem_replAux {x : Char} {pat repl : List Char} :
    ∀ {s : List Char} {skip : Nat}, x ∈ replAux pat repl skip s → x ∈ repl ∨ x ∈ s := by
  intro s
  induction s with
  | nil => intro skip h; simp [replAux] at h
  | cons c rest ih =>
    intro skip h
    match skip with
    | skip' + 1 =>
      simp only [replAux] at h
      rcases ih h with h1 | h2
      · exact Or.inl h1
      · exact Or.inr (List.mem_cons_of_mem _ h2)
    | 0 =>
      simp only [replAux] at h
      split at h
      · rcases List.mem_append.mp h with h1 | h2
        · exact Or.inl h1
        · rcases ih h2 with h3 | h4
          · exact Or.inl h3
          · exact Or.inr (List.mem_cons_of_mem _ h4)
      · rcases List.mem_cons.mp h with h1 | h2
        · exact Or.inr (h1 ▸ List.mem_cons_self _ _)
        · rcases ih h2 with h3 | h4
          · exact Or.inl h3
          · exact Or.inr (List.mem_cons_of_mem _ h4)

theorem mem_replaceAll {x : Char} {pat repl s : List Char}
    (h : x ∈ replaceAll pat repl s) : x ∈ repl ∨ x ∈ s :=
  mem_replAux h

theorem length_removeAccentAEI (s : List Char) :
    (removeAccentAEI s).length = s.length := by
  simp only [removeAccentAEI, replaceAll_singleton]
  simp

theorem length_normalize (s : List Char) : (normalize s).length = s.length := by
  simp only [normalize, replaceAll_singleton]
  simp

theorem removeAccentAEI_suffix_mono {a b : List Char} (h : a <:+ b) :
    removeAccentAEI a <:+ removeAccentAEI b := by
  simp only [removeAccentAEI, replaceAll_singleton]
  exact ((h.map _).map _).map _

/-! ## The regions computed by the RegionComputer are suffixes -/

theorem r1Scan_suffix : ∀ (l : List Char) (prev : Char), r1Scan prev l <:+ l := by
  intro l
  induction l with
  | nil => intro prev; simp [r1Scan]
  | cons c rest ih =>
    intro prev
    simp only [r1Scan]
    split
    · exact List.suffix_cons c rest
    · exact (ih c).trans (List.suffix_cons c rest)

theorem r1r2_fst_suffix (w : List Char) : (r1r2Standard w).1 <:+ w := by
  match w with
  | [] => simp [r1r2Standard]
  | c :: rest =>
    simp only [r1r2Standard]
    cases h : r1Scan c rest with
    | nil => simp
    | cons d drest =>
      simpa using (h ▸ r1Scan_suffix rest c).trans (List.suffix_cons c rest)

theorem r1r2_snd_suffix_fst (w : List Char) :
    (r1r2Standard w).2 <:+ (r1r2Standard w).1 := by
  match w with
  | [] => simp [r1r2Standard]
  | c :: rest =>
    simp only [r1r2Standard]
    cases h : r1Scan c rest with
    | nil => simp
    | cons d drest =>
      simpa using (r1Scan_suffix drest d).trans (List.suffix_cons d drest)

theorem rvScanVowel_suffix : ∀ (l : List Char), rvScanVowel l <:+ l := by
  intro l
  induction l with
  | nil => simp [rvScanVowel]
  | cons c rest ih =>
    simp only [rvScanVowel]
    split
    · exact List.suffix_cons c rest
    · exact ih.trans (List.suffix_cons c rest)

theorem rvScanCons_suffix : ∀ (l : List Char), rvScanCons l <:+ l := by
  intro l
  induction l with
  | nil => simp [rvScanCons]
  | cons c rest ih =>
    simp only [rvScanCons]
    split
    · exact List.suffix_cons c rest
    · exact ih.trans (List.suffix_cons c rest)

theorem rvStandard_suffix (w : List Char) : rvStandard w <:+ w := by
  match w with
  | [] => simp [rvStandard]
  | [c] => simp [rvStandard]
  | c0 :: c1 :: rest =>
    simp only [rvStandard]
    split
    · exact ((rvScanVowel_suffix rest).trans (List.suffix_cons c1 rest)).trans
        (List.suffix_cons c0 (c1 :: rest))
    · split
      · exact ((rvScanCons_suffix rest).trans (List.suffix_cons c1 rest)).trans
          (List.suffix_cons c0 (c1 :: rest))
      · exact List.drop_suffix 3 (c0 :: c1 :: rest)

theorem initState_regionsOk (w : List Char) : RegionsOk (initState w) := by
  refine ⟨?_, ?_, ?_⟩
  · exact r1r2_snd_suffix_fst (w.map pyLower)
  · exact r1r2_fst_suffix (w.map pyLower)
  · exact rvStandard_suffix (w.map pyLower)

theorem initState_success (w : List Char) :
    (initState w).step1_success = false := rfl

/-! ## Step 0 keeps the region invariant -/

theorem branch0_regionsOk (s : List Char) (st : StemState) (h : RegionsOk st) :
    RegionsOk (branch0 s st) := by
  obtain ⟨h21, h1w, hvw⟩ := h
  simp only [branch0]
  split
  · exact ⟨removeAccentAEI_suffix_mono (dropLastN_suffix_mono h21 _),
      removeAccentAEI_suffix_mono (dropLastN_suffix_mono h1w _),
      removeAccentAEI_suffix_mono (dropLastN_suffix_mono hvw _)⟩
  · split
    · exact ⟨dropLastN_suffix_mono h21 _, dropLastN_suffix_mono h1w _,
        dropLastN_suffix_mono hvw _⟩
    · split
      · exact ⟨dropLastN_suffix_mono h21 _, dropLastN_suffix_mono h1w _,
          dropLastN_suffix_mono hvw _⟩
      · exact ⟨h21, h1w, hvw⟩

theorem step0_regionsOk (st : StemState) (h : RegionsOk st) :
    RegionsOk (step0 st) := by
  unfold step0
  split
  · split
    · exact branch0_regionsOk _ _ h
    · exact h
  · exact h

theorem branch0_success (s : List Char) (st : StemState) :
    (branch0 s st).step1_success = st.step1_success := by
  simp only [branch0]
  split
  · rfl
  · split
    · rfl
    · split
      · rfl
      · rfl

theorem step0_success (st : StemState) :
    (step0 st).step1_success = st.step1_success := by
  simp only [step0]
  split
  · split
    · exact branch0_success _ _
    · rfl
  · rfl

/-! ## Word length never grows at any step -/

theorem initState_word_length (w : List Char) :
    (initState w).word.length = w.length := by
  simp [initState]

theorem branch0_word_le (s : List Char) (st : StemState) :
    (branch0 s st).word.length ≤ st.word.length := by
  simp only [branch0]
  repeat' split
  all_goals try simp only [length_removeAccentAEI, length_dropLastN]
  all_goals omega

theorem step0_word_le (st : StemState) :
    (step0 st).word.length ≤ st.word.length := by
  simp only [step0]
  split
  · split
    · exact branch0_word_le _ _
    · exact Nat.le_refl _
  · exact Nat.le_refl _

theorem step1Amente_word_le (st : StemState) :
    (step1Amente st).word.length ≤ st.word.length := by
  simp only [step1Amente]
  repeat' split
  all_goals simp only [length_dropLastN]
  all_goals omega

theorem step1Ador_word_le (s : List Char) (st : StemState) :
    (step1Ador s st).word.length ≤ st.word.length := by
  simp only [step1Ador]
  repeat' split
  all_goals simp only [length_dropLastN]
  all_goals omega

theorem step1Replace_word_le (s r : List Char) (st : StemState)
    (hr : r.length ≤ s.length) :
    (step1Replace s r st).word.length ≤ st.word.length :=
  length_replaceAll_le hr st.word

theorem step1Mente_word_le (st : StemState) :
    (step1Mente st).word.length ≤ st.word.length := by
  simp only [step1Mente]
  repeat' split
  all_goals simp only [length_dropLastN]
  all_goals omega

theorem step1Idad_word_le (s : List Char) (st : StemState) :
    (step1Idad s st).word.length ≤ st.word.length := by
  simp only [step1Idad]
  repeat' split
  all_goals simp only [length_dropLastN]
  all_goals omega

theorem step1Ivo_word_le (s : List Char) (st : StemState) :
    (step1Ivo s st).word.length ≤ st.word.length := by
  simp only [step1Ivo]
  repeat' split
  all_goals simp only [length_dropLastN]
  all_goals omega

theorem step1Plain_word_le (s : List Char) (st : StemState) :
    (step1Plain s st).word.length ≤ st.word.length := by
  simp only [step1Plain, length_dropLastN]
  omega

theorem step1Apply_word_le (s : List Char) (st : StemState) :
    (step1Apply s st).word.length ≤ st.word.length := by
  simp only [step1Apply]
  repeat' split
  · exact step1Amente_word_le _
  · exact step1Ador_word_le _ _
  · apply step1Replace_word_le
    rcases (by assumption : s = "logía".data ∨ s = "logías".data) with rfl | rfl <;> decide
  · apply step1Replace_word_le
    rcases (by assumption : s = "ución".data ∨ s = "uciones".data) with rfl | rfl <;> decide
  · apply step1Replace_word_le
    rcases (by assumption : s = "encia".data ∨ s = "encias".data) with rfl | rfl <;> decide
  · exact step1Mente_word_le _
  · exact step1Idad_word_le _ _
  · exact step1Ivo_word_le _ _
  · exact step1Plain_word_le _ _
  · exact Nat.le_refl _

theorem step1_word_le (st : StemState) :
    (step1 st).word.length ≤ st.word.length := by
  simp only [step1]
  split
  · exact step1Apply_word_le _ _
  · exact Nat.le_refl _

theorem step2a_word_le (st : StemState) :
    (step2a st).word.length ≤ st.word.length := by
  simp only [step2a]
  split
  · simp only [length_dropLastN]; omega
  · exact Nat.le_refl _

theorem step2b_word_le (st : StemState) :
    (step2b st).word.length ≤ st.word.length := by
  simp only [step2b]
  repeat' split
  all_goals try simp only [length_dropLastN]
  all_goals omega

theorem step2_word_le (st : StemState) :
    (step2 st).word.length ≤ st.word.length := by
  simp only [step2]
  split
  · exact Nat.le_refl _
  · exact Nat.le_trans (step2b_word_le _) (step2a_word_le _)

theorem step3_word_le {st st' : StemState} (h : step3 st = some st') :
    st'.word.length ≤ st.word.length := by
  simp only [step3] at h
  repeat' split at h
  all_goals try simp only [Option.some.injEq] at h
  all_goals first
    | (subst h; (try simp only [length_dropLastN]); omega)
    | (exact absurd h (by simp))

/-! ## Every step keeps the word lowercase -/

theorem lowerFixed_dropLastN {s : List Char} {n : Nat} (h : LowerFixed s) :
    LowerFixed (dropLastN s n) := fun c hc => h c (mem_of_mem_dropLastN hc)

theorem lowerFixed_replaceAll {pat repl s : List Char} (hr : LowerFixed repl)
    (h : LowerFixed s) : LowerFixed (replaceAll pat repl s) :=
  fun c hc => (mem_replaceAll hc).elim (hr c) (h c)

theorem lowerFixed_of_all {l : List Char}
    (h : l.all (fun c => pyLower c == c) = true) : LowerFixed l := by
  intro c hc
  simpa using List.all_eq_true.mp h c hc

theorem lowerFixed_removeAccentAEI {s : List Char} (h : LowerFixed s) :
    LowerFixed (removeAccentAEI s) := by
  unfold removeAccentAEI
  exact lowerFixed_replaceAll (lowerFixed_of_all (by decide))
    (lowerFixed_replaceAll (lowerFixed_of_all (by decide))
      (lowerFixed_replaceAll (lowerFixed_of_all (by decide)) h))

theorem lowerFixed_normalize {s : List Char} (h : LowerFixed s) :
    LowerFixed (normalize s) := by
  unfold normalize
  exact lowerFixed_replaceAll (lowerFixed_of_all (by decide))
    (lowerFixed_replaceAll (lowerFixed_of_all (by decide))
      (lowerFixed_replaceAll (lowerFixed_of_all (by decide))
        (lowerFixed_replaceAll (lowerFixed_of_all (by decide))
          (lowerFixed_replaceAll (lowerFixed_of_all (by decide)) h))))

theorem initState_lowerFixed (w : List Char) : LowerFixed (initState w).word := by
  intro c hc
  obtain ⟨y, _, rfl⟩ := List.mem_map.mp hc
  exact pyLower_idem y

theorem step0_lowerFixed (st : StemState) (h : LowerFixed st.word) :
    LowerFixed (step0 st).word := by
  simp only [step0, branch0]
  repeat' split
  all_goals first
    | exact h
    | exact lowerFixed_removeAccentAEI (lowerFixed_dropLastN h)
    | exact lowerFixed_dropLastN h

theorem lowerFixed_log : LowerFixed "log".data := lowerFixed_of_all (by decide)

theorem lowerFixed_u : LowerFixed "u".data := lowerFixed_of_all (by decide)

theorem lowerFixed_ente : LowerFixed "ente".data := lowerFixed_of_all (by decide)

theorem step1Amente_lowerFixed (st : StemState) (h : LowerFixed st.word) :
    LowerFixed (step1Amente st).word := by
  simp only [step1Amente]
  repeat' split
  all_goals first
    | exact lowerFixed_dropLastN h
    | exact lowerFixed_dropLastN (lowerFixed_dropLastN h)
    | exact lowerFixed_dropLastN (lowerFixed_dropLastN (lowerFixed_dropLastN h))

theorem step1Ador_lowerFixed (s : List Char) (st : StemState)
    (h : LowerFixed st.word) : LowerFixed (step1Ador s st).word := by
  simp only [step1Ador]
  repeat' split
  all_goals first
    | exact lowerFixed_dropLastN h
    | exact lowerFixed_dropLastN (lowerFixed_dropLastN h)

theorem step1Mente_lowerFixed (st : StemState) (h : LowerFixed st.word) :
    LowerFixed (step1Mente st).word := by
  simp only [step1Mente]
  repeat' split
  all_goals first
    | exact lowerFixed_dropLastN h
    | exact lowerFixed_dropLastN (lowerFixed_dropLastN h)

theorem step1Idad_lowerFixed (s : List Char) (st : StemState)
    (h : LowerFixed st.word) : LowerFixed (step1Idad s st).word := by
  simp only [step1Idad]
  exact lowerFixed_dropLastN
    (lowerFixed_dropLastN (lowerFixed_dropLastN (lowerFixed_dropLastN h)))

theorem step1Ivo_lowerFixed (s : List Char) (st : StemState)
    (h : LowerFixed st.word) : LowerFixed (step1Ivo s st).word := by
  simp only [step1Ivo]
  repeat' split
  all_goals first
    | exact lowerFixed_dropLastN h
    | exact lowerFixed_dropLastN (lowerFixed_dropLastN h)

theorem step1Apply_lowerFixed (s : List Char) (st : StemState)
    (h : LowerFixed st.word) : LowerFixed (step1Apply s st).word := by
  simp only [step1Apply]
  repeat' split
  · exact step1Amente_lowerFixed _ h
  · exact step1Ador_lowerFixed _ _ h
  · exact lowerFixed_replaceAll lowerFixed_log h
  · exact lowerFixed_replaceAll lowerFixed_u h
  · exact lowerFixed_replaceAll lowerFixed_ente h
  · exact step1Mente_lowerFixed _ h
  · exact step1Idad_lowerFixed _ _ h
  · exact step1Ivo_lowerFixed _ _ h
  · exact lowerFixed_dropLastN h
  · exact h

theorem step1_lowerFixed (st : StemState) (h : LowerFixed st.word) :
    LowerFixed (step1 st).word := by
  simp only [step1]
  split
  · exact step1Apply_lowerFixed _ _ h
  · exact h

theorem step2a_lowerFixed (st : StemState) (h : LowerFixed st.word) :
    LowerFixed (step2a st).word := by
  simp only [step2a]
  repeat' split
  all_goals first
    | exact h
    | exact lowerFixed_dropLastN h

theorem step2b_lowerFixed (st : StemState) (h : LowerFixed st.word) :
    LowerFixed (step2b st).word := by
  simp only [step2b]
  repeat' split
  all_goals first
    | exact h
    | exact lowerFixed_dropLastN h
    | exact lowerFixed_dropLastN (lowerFixed_dropLastN h)

theorem step2_lowerFixed (st : StemState) (h : LowerFixed st.word) :
    LowerFixed (step2 st).word := by
  simp only [step2]
  split
  · exact h
  · exact step2b_lowerFixed _ (step2a_lowerFixed _ h)

theorem step3_lowerFixed {st st' : StemState} (hs : step3 st = some st')
    (h : LowerFixed st.word) : LowerFixed st'.word := by
  simp only [step3] at hs
  repeat' split at hs
  all_goals try simp only [Option.some.injEq] at hs
  all_goals first
    | (subst hs; first
        | exact h
        | exact lowerFixed_dropLastN h
        | exact lowerFixed_dropLastN (lowerFixed_dropLastN h))
    | (exact absurd hs (by simp))

/-! ## Step 1 sets the flag exactly when it shortens the word -/

theorem step1Suffixes_len : ∀ s ∈ step1Suffixes, 1 ≤ s.length := by decide

theorem step1Amente_success (st : StemState) :
    (step1Amente st).step1_success = true := by
  simp only [step1Amente]
  repeat' split
  all_goals rfl

theorem step1Ador_success (s : List Char) (st : StemState) :
    (step1Ador s st).step1_success = true := by
  simp only [step1Ador]
  split
  all_goals rfl

theorem step1Mente_success (st : StemState) :
    (step1Mente st).step1_success = true := by
  simp only [step1Mente]
  split
  all_goals rfl

theorem step1Ivo_success (s : List Char) (st : StemState) :
    (step1Ivo s st).step1_success = true := by
  simp only [step1Ivo]
  split
  all_goals rfl

theorem step1Amente_word_lt (st : StemState) (h6 : 6 ≤ st.word.length) :
    (step1Amente st).word.length < st.word.length := by
  simp only [step1Amente]
  repeat' split
  all_goals simp only [length_dropLastN]
  all_goals omega

theorem step1Ador_word_lt (s : List Char) (st : StemState) (h1 : 1 ≤ s.length)
    (hn : s.length ≤ st.word.length) :
    (step1Ador s st).word.length < st.word.length := by
  simp only [step1Ador]
  split
  all_goals simp only [length_dropLastN]
  all_goals omega

theorem step1Mente_word_lt (st : StemState) (h5 : 5 ≤ st.word.length) :
    (step1Mente st).word.length < st.word.length := by
  simp only [step1Mente]
  split
  all_goals simp only [length_dropLastN]
  all_goals omega

theorem step1Idad_word_lt (s : List Char) (st : StemState) (h1 : 1 ≤ s.length)
    (hn : s.length ≤ st.word.length) :
    (step1Idad s st).word.length < st.word.length := by
  simp only [step1Idad]
  repeat' split
  all_goals simp only [length_dropLastN]
  all_goals omega

theorem step1Ivo_word_lt (s : List Char) (st : StemState) (h1 : 1 ≤ s.length)
    (hn : s.length ≤ st.word.length) :
    (step1Ivo s st).word.length < st.word.length := by
  simp only [step1Ivo]
  split
  all_goals simp only [length_dropLastN]
  all_goals omega

theorem step1Plain_word_lt (s : List Char) (st : StemState) (h1 : 1 ≤ s.length)
    (hn : s.length ≤ st.word.length) :
    (step1Plain s st).word.length < st.word.length := by
  simp only [step1Plain, length_dropLastN]
  omega

theorem step1Apply_spec (s : List Char) (st : StemState)
    (hw : endsWith st.word s = true) (hmem : s ∈ step1Suffixes)
    (hst : st.step1_success = false) :
    (step1Apply s st = st ∧ (step1Apply s st).step1_success = false) ∨
      ((step1Apply s st).step1_success = true ∧
        (step1Apply s st).word.length < st.word.length) := by
  have h1 : 1 ≤ s.length := step1Suffixes_len s hmem
  have hn : s.length ≤ st.word.length := endsWith_length_le hw
  simp only [step1Apply]
  split
  · rename_i hcond
    right
    have hs6 : s = "amente".data := hcond.1
    refine ⟨step1Amente_success st, step1Amente_word_lt st ?_⟩
    subst hs6
    simpa using hn
  · split
    · repeat' split
      · exact Or.inr ⟨step1Ador_success _ _, step1Ador_word_lt _ _ h1 hn⟩
      · rename_i hdisj
        right
        refine ⟨rfl, ?_⟩
        apply length_replaceAll_lt ?_ ?_ hw
        all_goals rcases hdisj with rfl | rfl
        all_goals decide
      · rename_i hdisj
        right
        refine ⟨rfl, ?_⟩
        apply length_replaceAll_lt ?_ ?_ hw
        all_goals rcases hdisj with rfl | rfl
        all_goals decide
      · rename_i hdisj
        right
        refine ⟨rfl, ?_⟩
        apply length_replaceAll_lt ?_ ?_ hw
        all_goals rcases hdisj with rfl | rfl
        all_goals decide
      · rename_i hmente
        right
        refine ⟨step1Mente_success st, step1Mente_word_lt st ?_⟩
        subst hmente
        simpa using hn
      · exact Or.inr ⟨rfl, step1Idad_word_lt _ _ h1 hn⟩
      · exact Or.inr ⟨step1Ivo_success _ _, step1Ivo_word_lt _ _ h1 hn⟩
      · exact Or.inr ⟨rfl, step1Plain_word_lt _ _ h1 hn⟩
    · exact Or.inl ⟨rfl, hst⟩

theorem step1_spec (st : StemState) (hst : st.step1_success = false) :
    (step1 st = st ∧ (step1 st).step1_success = false) ∨
      ((step1 st).step1_success = true ∧ (step1 st).word.length < st.word.length) := by
  simp only [step1]
  split
  · rename_i s hfind
    exact step1Apply_spec s st (List.find?_some hfind)
      (List.mem_of_find?_eq_some hfind) hst
  · exact Or.inl ⟨rfl, hst⟩

/-! ## Step 0: the code agrees with the spec's first-both-match description -/

theorem find?_and_of_find? {α : Type} (p q : α → Bool) :
    ∀ (l : List α) (a : α), l.find? p = some a → q a = true →
      l.find? (fun x => p x && q x) = some a := by
  intro l
  induction l with
  | nil => intro a h _; simp at h
  | cons x xs ih =>
    intro a h hq
    by_cases hx : p x = true
    · rw [List.find?_cons_of_pos _ hx] at h
      simp only [Option.some.injEq] at h
      subst h
      exact List.find?_cons_of_pos _ (by simp [hx, hq])
    · rw [List.find?_cons_of_neg _ hx] at h
      rw [List.find?_cons_of_neg _ (by simp [hx])]
      exact ih a h hq

theorem find?_and_none {α : Type} (p q : α → Bool) (l : List α)
    (h : l.find? p = none) : l.find? (fun x => p x && q x) = none := by
  rw [List.find?_eq_none] at h ⊢
  intro x hx hpq
  rw [Bool.and_eq_true] at hpq
  exact h x hx hpq.1

theorem endsWith_false_of_short {s p : List Char} (h : s.length < p.length) :
    endsWith s p = false := by
  cases hb : endsWith s p with
  | false => rfl
  | true => exact absurd (endsWith_length_le hb) (by omega)

theorem branch0_noop (s : List Char) (st : StemState)
    (h : (dropLastN st.rv s.length).length ≤ 1) : branch0 s st = st := by
  have h1 : endsWithAny (dropLastN st.rv s.length)
      ["iéndo".data, "ándo".data, "ár".data, "ér".data, "ír".data] = false := by
    simp only [endsWithAny, List.any_eq_false]
    intro p hp
    have h2 : 2 ≤ p.length := by fin_cases hp <;> decide
    simp [endsWith_false_of_short
      (show (dropLastN st.rv s.length).length < p.length by omega)]
  have h2 : endsWithAny (dropLastN st.rv s.length)
      ["ando".data, "iendo".data, "ar".data, "er".data, "ir".data] = false := by
    simp only [endsWithAny, List.any_eq_false]
    intro p hp
    have h2 : 2 ≤ p.length := by fin_cases hp <;> decide
    simp [endsWith_false_of_short
      (show (dropLastN st.rv s.length).length < p.length by omega)]
  have h3 : endsWith (dropLastN st.rv s.length) "yendo".data = false :=
    endsWith_false_of_short (by simp; omega)
  simp only [branch0]
  rw [if_neg (by simp [h1]), if_neg (by simp [h2]), if_neg (by simp [h3])]

theorem step0_pairs : ∀ a ∈ step0Suffixes, ∀ b ∈ step0Suffixes,
    a ≠ b → a.isSuffixOf b = true → b = "se".data ++ a := by decide

theorem step0_eq_specStep0 (st : StemState) (hrv : st.rv <:+ st.word) :
    step0 st = specStep0 st := by
  simp only [step0, specStep0]
  cases hw : step0Suffixes.find? (fun s => endsWith st.word s) with
  | none =>
    rw [find?_and_none (fun s => endsWith st.word s)
      (fun s => endsWith st.rv s) _ hw]
  | some s0 =>
    have hs0w : endsWith st.word s0 = true := List.find?_some hw
    have hs0mem : s0 ∈ step0Suffixes := List.mem_of_find?_eq_some hw
    by_cases hs0v : endsWith st.rv s0 = true
    · rw [find?_and_of_find? (fun s => endsWith st.word s)
        (fun s => endsWith st.rv s) _ _ hw hs0v]
      dsimp only
      rw [if_pos hs0v]
    · dsimp only
      rw [if_neg hs0v]
      cases hb : step0Suffixes.find?
          (fun x => endsWith st.word x && endsWith st.rv x) with
      | none => rfl
      | some s2 =>
        dsimp only
        have hs2 := List.find?_some hb
        rw [Bool.and_eq_true] at hs2
        obtain ⟨hs2w, hs2v⟩ := hs2
        have hs2mem : s2 ∈ step0Suffixes := List.mem_of_find?_eq_some hb
        have hsuf0 : s0 <:+ st.word := endsWith_iff.mp hs0w
        have hsuf2 : s2 <:+ st.word := endsWith_iff.mp hs2w
        rcases Nat.le_total s2.length s0.length with hle | hle
        · have h2in0 : s2 <:+ s0 := suffix_of_suffix_of_length_le hsuf2 hsuf0 hle
          have hne : s2 ≠ s0 := fun he => hs0v (by rw [← he]; exact hs2v)
          have hpair : s0 = "se".data ++ s2 :=
            step0_pairs s2 hs2mem s0 hs0mem hne
              (by rw [List.isSuffixOf_iff_suffix]; exact h2in0)
          have hrvshort : st.rv.length < s0.length := by
            by_contra hge
            push_neg at hge
            exact hs0v (endsWith_iff.mpr
              (suffix_of_suffix_of_length_le hsuf0 hrv hge))
          have hlen0 : s0.length = s2.length + 2 := by rw [hpair]; simp
          refine (branch0_noop s2 st ?_).symm
          rw [length_dropLastN]
          omega
        · have h0in2 : s0 <:+ s2 := suffix_of_suffix_of_length_le hsuf0 hsuf2 hle
          exact absurd (endsWith_iff.mpr
            (h0in2.trans (endsWith_iff.mp hs2v))) hs0v

/-! ## The final normalization removes the five accented vowels -/

theorem not_mem_map_replace_self (a b : Char) (hba : b ≠ a) (l : List Char) :
    a ∉ l.map (fun c => if c == a then b else c) := by
  intro hmem
  obtain ⟨y, _, hy⟩ := List.mem_map.mp hmem
  by_cases h : y = a
  · subst h
    simp at hy
    exact hba hy
  · rw [if_neg (by simpa using h)] at hy
    exact h hy

theorem not_mem_map_replace_other (a b x : Char) (hbx : b ≠ x)
    (l : List Char) (hl : x ∉ l) :
    x ∉ l.map (fun c => if c == a then b else c) := by
  intro hmem
  obtain ⟨y, hyl, hy⟩ := List.mem_map.mp hmem
  by_cases h : y = a
  · subst h
    simp at hy
    exact hbx hy
  · rw [if_neg (by simpa using h)] at hy
    subst hy
    exact hl hyl

theorem normalize_not_accent (s : List Char) :
    ∀ x ∈ accentChars, x ∉ normalize s := by
  intro x hx
  simp only [normalize, replaceAll_singleton]
  fin_cases hx
  · exact not_mem_map_replace_other _ _ _ (by decide) _
      (not_mem_map_replace_other _ _ _ (by decide) _
        (not_mem_map_replace_other _ _ _ (by decide) _
          (not_mem_map_replace_other _ _ _ (by decide) _
            (not_mem_map_replace_self _ _ (by decide) _))))
  · exact not_mem_map_replace_other _ _ _ (by decide) _
      (not_mem_map_replace_other _ _ _ (by decide) _
        (not_mem_map_replace_other _ _ _ (by decide) _
          (not_mem_map_replace_self _ _ (by decide) _)))
  · exact not_mem_map_replace_other _ _ _ (by decide) _
      (not_mem_map_replace_other _ _ _ (by decide) _
        (not_mem_map_replace_self _ _ (by decide) _))
  · exact not_mem_map_replace_other _ _ _ (by decide) _
      (not_mem_map_replace_self _ _ (by decide) _)
  · exact not_mem_map_replace_self _ _ (by decide) _

/-! ## The claims -/

/-- C1: the spec states that `stem` returns a string for every input and
never raises — the algorithm is total.  The code violates this: on input
"bcdfgue", RV is "e"; step 3 strips that final "e", leaving RV empty while
the word now ends in "gu", and line 239 then evaluates `rv[-1]` on the empty
string, raising `IndexError`.  The model returns `none` exactly at that
evaluation. -/
theorem c1_stem_raises_on_bcdfgue : stem "bcdfgue".data = none := by decide

/-- C2: every string the stemmer actually returns contains none of the five
accented vowels á é í ó ú, and is lowercase: each of its characters is fixed
by lowercasing. -/
theorem c2_output_lowercase_accent_free (w out : List Char)
    (h : stem w = some out) :
    (∀ c ∈ out, c ∉ accentChars) ∧ ∀ c ∈ out, pyLower c = c := by
  simp only [stem, Option.map_eq_some'] at h
  obtain ⟨st3, hst3, hout⟩ := h
  subst hout
  refine ⟨?_, ?_⟩
  · intro c hc hacc
    exact normalize_not_accent _ c hacc hc
  · intro c hc
    have h0 := initState_lowerFixed w
    have h1 := step0_lowerFixed _ h0
    have h2 := step1_lowerFixed _ h1
    have h3 := step2_lowerFixed _ h2
    have h4 := step3_lowerFixed hst3 h3
    exact lowerFixed_normalize h4 c hc

/-- Witness for C2 at the concrete input "amigos" (stem "amig"). -/
theorem c2_witness :
    (∀ c ∈ "amig".data, c ∉ accentChars) ∧ ∀ c ∈ "amig".data, pyLower c = c :=
  c2_output_lowercase_accent_free "amigos".data "amig".data (by decide)

/-- C3 counterexample: the invariant "len r2 ≤ len r1 ≤ len word at every
step boundary" fails at the boundary after step 1.  On "rápidamente" the
amente branch strips the word, r2 and rv but leaves r1 untouched (lines
131-135), so the stale r1 ("idamente", length 8) is longer than the current
word ("rápid", length 5). -/
theorem c3_counterexample :
    ¬ ((step1 (step0 (initState "rápidamente".data))).r1.length ≤
        (step1 (step0 (initState "rápidamente".data))).word.length) := by decide

/-- C3 (amended): the region invariant does hold at every boundary up to the
entry of step 1 — after region computation and again after step 0, `r2` is a
suffix of `r1`, `r1` and `rv` are suffixes of the current word, and hence
len r2 ≤ len r1 ≤ len word.  Step 1 does not maintain it: `r1` (and in some
branches `r2`) goes stale; only the word and RV are kept current for the
later steps, as the counterexample shows. -/
theorem c3_regions_valid_until_step1 (w : List Char) :
    (RegionsOk (initState w) ∧
      (initState w).r2.length ≤ (initState w).r1.length ∧
      (initState w).r1.length ≤ (initState w).word.length) ∧
    (RegionsOk (step0 (initState w)) ∧
      (step0 (initState w)).r2.length ≤ (step0 (initState w)).r1.length ∧
      (step0 (initState w)).r1.length ≤ (step0 (initState w)).word.length) := by
  have h0 := initState_regionsOk w
  have h1 := step0_regionsOk _ h0
  exact ⟨⟨h0, h0.1.length_le, h0.2.1.length_le⟩,
    ⟨h1, h1.1.length_le, h1.2.1.length_le⟩⟩

/-- C4: step 0 acts on the first suffix in the fixed priority order for
which BOTH the word and RV end with the suffix, and only on such a suffix is
the three-way branch evaluated: under the RegionComputer's guarantee that RV
is a suffix of the word, the code's loop (which breaks at the first
word-match) is extensionally equal to the first-both-match loop `specStep0`
written from the spec's words. -/
theorem c4_step0_first_both_match (st : StemState)
    (h : st.rv <:+ st.word) : step0 st = specStep0 st :=
  step0_eq_specStep0 st h

/-- Witness for C4 at the concrete initial state of "cantándoselas". -/
theorem c4_witness :
    step0 (initState "cantándoselas".data) =
      specStep0 (initState "cantándoselas".data) :=
  c4_step0_first_both_match (initState "cantándoselas".data) (by decide)

/-- C5: whenever the stemmer returns a string, its length is at most the
length of the input. -/
theorem c5_output_length_le (w out : List Char) (h : stem w = some out) :
    out.length ≤ w.length := by
  simp only [stem, Option.map_eq_some'] at h
  obtain ⟨st3, hst3, hout⟩ := h
  subst hout
  calc (normalize st3.word).length
      = st3.word.length := length_normalize _
    _ ≤ (step2 (step1 (step0 (initState w)))).word.length := step3_word_le hst3
    _ ≤ (step1 (step0 (initState w))).word.length := step2_word_le _
    _ ≤ (step0 (initState w)).word.length := step1_word_le _
    _ ≤ (initState w).word.length := step0_word_le _
    _ = w.length := initState_word_length w

/-- Witness for C5 at the concrete input "comiendo" (stem "com"). -/
theorem c5_witness : "com".data.length ≤ "comiendo".data.length :=
  c5_output_length_le "comiendo".data "com".data (by decide)

/-- C6: steps 2a and 2b both execute exactly when step 1 performed no
removal: the `step1_success` flag is set iff step 1 changed the word, and
the gate passes the state through unchanged when the flag is set, and
otherwise applies step 2b to the output of step 2a. -/
theorem c6_step2_gate (w : List Char) :
    ((step1 (step0 (initState w))).step1_success = true ↔
      (step1 (step0 (initState w))).word ≠ (step0 (initState w)).word) ∧
    step2 (step1 (step0 (initState w))) =
      (if (step1 (step0 (initState w))).step1_success = true
        then step1 (step0 (initState w))
        else step2b (step2a (step1 (step0 (initState w))))) := by
  have hflag : (step0 (initState w)).step1_success = false := by
    rw [step0_success]; rfl
  rcases step1_spec _ hflag with ⟨heq, hsucc⟩ | ⟨hsucc, hlt⟩
  · refine ⟨⟨fun hcontra => ?_, fun hne => ?_⟩, ?_⟩
    · rw [hsucc] at hcontra; exact absurd hcontra (by simp)
    · exact absurd (congrArg StemState.word heq) hne
    · simp only [step2, hsucc]
  · refine ⟨⟨fun _ hweq => ?_, fun _ => hsucc⟩, ?_⟩
    · rw [hweq] at hlt; exact Nat.lt_irrefl _ hlt
    · simp only [step2, hsucc]

/-- C7: the claim says a logía-family rewrite touches only the trailing
suffix occurrence.  The code uses `str.replace` (lines 163-165), which
rewrites every occurrence: on "ulogíalogía" (where R2 ends with "logía" and
an earlier "logía" occurs at positions 1-5), step 1 turns the word into
"uloglog", changing characters before the final occurrence, and the final
stem is "uloglog" instead of the "ulogialog" the claim implies. -/
theorem c7_replace_rewrites_all_occurrences :
    (step1 (step0 (initState "ulogíalogía".data))).word = "uloglog".data ∧
    (step1 (step0 (initState "ulogíalogía".data))).word.take 6 ≠
      "ulogíalogía".data.take 6 ∧
    stem "ulogíalogía".data = some "uloglog".data := by decide

/-- C8 counterexample: the spec's literal vector "claridad" → "clar" is
false for this code: R2 of "claridad" is "ad", so the idad rule does not
fire in step 1; step 2b then strips the verb ending "ad", giving "clarid". -/
theorem c8_counterexample : stem "claridad".data ≠ some "clar".data := by decide

/-- C8 (amended): the literal scenarios with "claridad" corrected to
"clarid"; every other vector holds as the spec states it, including the
empty string. -/
theorem c8_literal_scenarios :
    stem "corriendo".data = some "corr".data ∧
    stem "comiendo".data = some "com".data ∧
    stem "claridad".data = some "clarid".data ∧
    stem "rápidamente".data = some "rapid".data ∧
    stem "amigos".data = some "amig".data ∧
    stem [] = some [] := by decide

/-- C9: ü belongs to the vowel set used for region computation, but the
final normalization replaces only á é í ó ú, so a returned stem can contain
ü: stemming "pingüino" returns "pingüin". -/
theorem c9_diaeresis_preserved :
    'ü' ∈ vowels ∧ normalize "pingüin".data = "pingüin".data ∧
    stem "pingüino".data = some "pingüin".data ∧ 'ü' ∈ "pingüin".data := by
  decide

/-- C10: stemming is case-insensitive: `stem w = stem (lower w)`, because
the word is lowercased before region computation and any suffix test, and
lowercasing is idempotent. -/
theorem c10_case_insensitive (w : List Char) :
    stem w = stem (w.map pyLower) := by
  have h : initState (w.map pyLower) = initState w := by
    unfold initState
    rw [map_pyLower_idem]
  unfold stem
  rw [h]

end SpanishSnowball
